import Mathlib

/-
Shallow embedding of `src/app/src/flux/stores/message-store.ts` (a fork of
Mailspring's MessageStore).  Pure data is translated directly; the store's
mutable fields become an explicit `StoreState` record, and each handler is a
function from state to state that additionally reports how many times it
invoked `this.trigger()` (observer notification) and whether it fell back to
a full `_fetchFromCache` cycle.  External collaborators
(FocusedPerspectiveStore, FocusedContentStore, the database) are threaded in
as explicit parameters, mirroring the values the code reads from them.
-/

namespace MessageStore

/-- Folder record carried by a message; only `role` is read by the store. -/
structure Folder where
  role : String
deriving DecidableEq

/-- Modelled from the spec: `Message.isHidden` is implemented in the message
model, a file of this repository that is not part of the examined source.
The spec treats hiddenness as a message-local property (§3 HiddenCategorySet),
so it is embedded as an opaque per-message flag `hidden`, read by `isHidden`. -/
structure Message where
  id : String
  threadId : String
  draft : Bool
  unread : Bool
  date : Nat
  body : Option String
  snippet : Option String
  headerMessageId : String
  replyToHeaderMessageId : Option String
  folder : Folder
  hidden : Bool
deriving DecidableEq

/-- Read accessor for the opaque hidden flag, standing for `m.isHidden()`. -/
def Message.isHidden (m : Message) : Bool := m.hidden

/-- Thread record; the store only ever reads `id` (and `unread`, which feeds
an external side effect that is not modelled). -/
structure Thread where
  id : String
deriving DecidableEq

/-- JavaScript truthiness of a nullable string field: `null`/`undefined` and
the empty string are falsy. -/
def jsTruthy : Option String → Bool
  | none => false
  | some s => !(s == "")

/-- Expansion states stored in `_itemsExpanded` (absence = collapsed). -/
inductive ExpandKind where
  | explicitK
  | defaultK
deriving DecidableEq

/-- The `_itemsExpanded` JavaScript object, embedded as a finite-support map
from message id to expansion kind (`none` = key absent = collapsed). -/
def ExpMap := String → Option ExpandKind

/-- Property write `this._itemsExpanded[k] = v`. -/
def emSet (em : ExpMap) (k : String) (v : ExpandKind) : ExpMap :=
  fun k' => if k' = k then some v else em k'

/-- Property read `this._itemsExpanded[k]`. -/
def emGet (em : ExpMap) (k : String) : Option ExpandKind := em k

/-- The empty JavaScript object `{}`. -/
def emEmpty : ExpMap := fun _ => none

def FolderNamesHiddenByDefault : List String := ["spam", "trash"]

/-- The store's mutable fields (`_showingHiddenItems`, `_items`, `_thread`,
`_itemsExpanded`, `_itemsLoading`, `_lastMarkedAsReadThreadId`). -/
structure StoreState where
  showingHiddenItems : Bool
  items : List Message
  thread : Option Thread
  itemsExpanded : ExpMap
  itemsLoading : Bool
  lastMarkedAsReadThreadId : Option String

/-- Values read from external collaborators:
`FocusedPerspectiveStore.current().categoriesSharedRole()`. -/
structure Env where
  viewingRole : String

/-- Public accessor `items()`: the hidden-category filter over `_items`,
bypassed entirely when `_showingHiddenItems` is set. -/
def items (env : Env) (s : StoreState) : List Message :=
  if s.showingHiddenItems then s.items
  else
    let viewingHiddenCategory := FolderNamesHiddenByDefault.contains env.viewingRole
    s.items.filter fun item =>
      let inHidden := FolderNamesHiddenByDefault.contains item.folder.role
      if viewingHiddenCategory then inHidden || item.draft else !inHidden

/-- Public accessor `numberOfHiddenItems()`: `_items.length - items().length`. -/
def numberOfHiddenItems (env : Env) (s : StoreState) : Nat :=
  s.items.length - (items env s).length

/-- Guard of the backward extraction loop in `_sortItemsForDisplay`:
`item.draft && item.replyToHeaderMessageId` (JS truthiness). -/
def isReplyDraft (m : Message) : Bool :=
  m.draft && jsTruthy m.replyToHeaderMessageId

/-- Forward scan of the reinsertion loop in `_sortItemsForDisplay`: insert the
draft immediately after the first element whose `headerMessageId` equals the
draft's `replyToHeaderMessageId`, or push it at the end when no match exists. -/
def insertAfterMatch (d : Message) : List Message → List Message
  | [] => [d]
  | other :: rest =>
    if d.replyToHeaderMessageId = some other.headerMessageId then
      other :: d :: rest
    else
      other :: insertAfterMatch d rest

/-- Embeds `_sortItemsForDisplay`.  The source's backward splice loop removes
every reply-draft and pushes them in reverse discovery order, which is
rendered functionally as a filter plus a reversed filtered extraction; the
second loop then reinserts each extracted draft into the evolving list. -/
def sortItemsForDisplay (itemList : List Message) : List Message :=
  let itemsInReplyTo := (itemList.filter isReplyDraft).reverse
  let base := itemList.filter fun m => !(isReplyDraft m)
  itemsInReplyTo.foldl (fun acc d => insertAfterMatch d acc) base

/-- The `forEach` pass of `_expandItemsToDefault` recording the index of the
last draft seen (`-1`, i.e. `none`, when the list has no draft). -/
def lastDraftIdxGo : Nat → Option Nat → List Message → Option Nat
  | _, acc, [] => acc
  | idx, acc, item :: rest =>
    lastDraftIdxGo (idx + 1) (if item.draft then some idx else acc) rest

def lastDraftIdx (visibleItems : List Message) : Option Nat :=
  lastDraftIdxGo 0 none visibleItems

/-- The indexed `for` loop of `_expandItemsToDefault`, writing `'default'`
into the expansion map for every index satisfying the condition. -/
def expandLoopGo (cond : Nat → Message → Bool) : Nat → List Message → ExpMap → ExpMap
  | _, [], em => em
  | idx, item :: rest, em =>
    expandLoopGo cond (idx + 1) rest
      (if cond idx item then emSet em item.id ExpandKind.defaultK else em)

/-- Core of `_expandItemsToDefault`, over an explicit visible list: mark as
default-expanded every unread item, the last draft, and the last item. -/
def expandDefaults (visibleItems : List Message) (em : ExpMap) : ExpMap :=
  let ldi := lastDraftIdx visibleItems
  expandLoopGo
    (fun idx item => item.unread || (some idx == ldi) || (idx == visibleItems.length - 1))
    0 visibleItems em

/-- Embeds `_expandItemsToDefault`: recompute defaults over `this.items()`
into the live `_itemsExpanded` map. -/
def expandItemsToDefault (env : Env) (s : StoreState) : StoreState :=
  { s with itemsExpanded := expandDefaults (items env s) s.itemsExpanded }

/-- Body-placeholder synthesis of `_fetchFromCachePart2`: a falsy body is
replaced by the snippet-based placeholder, or by the fixed sentinel when the
snippet is falsy too. -/
def fillBody (m : Message) : Message :=
  if jsTruthy m.body then m
  else if jsTruthy m.snippet then
    { m with body := some ("SNIPPET: " ++ m.snippet.getD "") }
  else
    { m with body := some "MESSAGE TOO OLD" }

/-- Stable insertion step for the date sort. -/
def insertByDate (m : Message) : List Message → List Message
  | [] => [m]
  | x :: rest =>
    if m.date ≤ x.date then m :: x :: rest else x :: insertByDate m rest

/-- The `this._items.sort((a, b) => (a.date > b.date) ? 1 : -1)` call: the
comparator keeps `a` before `b` exactly when `a.date <= b.date`, and the
JavaScript engine's sort is stable, embedded here as stable insertion sort. -/
def sortByDate : List Message → List Message
  | [] => []
  | m :: rest => insertByDate m (sortByDate rest)

/-- State update of `_markAsRead`: `_lastMarkedAsReadThreadId` is set to the
current thread id when a thread is focused and it differs from the previous
value (the task emission itself is an external effect, not modelled). -/
def markAsReadUpdate (s : StoreState) : Option String :=
  match s.thread with
  | none => s.lastMarkedAsReadThreadId
  | some th =>
    if s.lastMarkedAsReadThreadId = some th.id then s.lastMarkedAsReadThreadId
    else some th.id

/-- One continuation of the per-thread query loop in `_fetchFromCachePart2`:
process the query result (body placeholders), push onto the shared
`messagesToList` pile, rebuild `_items` (hidden filter, re-threading sort,
date sort), recompute expansion defaults, clear the loading flag, run
`_markAsRead`, and `trigger` once.  Returns the new pile, state, and the
incremented trigger count.  Note: the continuation performs no check that the
focused thread still is the one the fetch was launched for. -/
def part2Step (env : Env) (acc : List Message × StoreState × Nat)
    (queryItems : List Message) : List Message × StoreState × Nat :=
  let pile := acc.1
  let s := acc.2.1
  let trig := acc.2.2
  let pile2 := pile ++ queryItems.map fillBody
  let items1 := pile2.filter fun m => !(m.isHidden)
  let items2 := sortItemsForDisplay items1
  let items3 := sortByDate items2
  let s1 := { s with items := items3 }
  let s2 := expandItemsToDefault env s1
  let s3 := { s2 with itemsLoading := false,
                      lastMarkedAsReadThreadId := markAsReadUpdate s2 }
  (pile2, s3, trig + 1)

/-- Embeds `_fetchFromCachePart2`: the query continuations for the found
threads run in order, each executing `part2Step` on the shared state.
`results` holds each per-thread message query result; the returned `Nat` is
the total number of `trigger` calls the whole cycle performed. -/
def fetchFromCachePart2 (env : Env) (results : List (List Message))
    (s : StoreState) : StoreState × Nat :=
  let r := results.foldl (part2Step env) ([], s, 0)
  (r.2.1, r.2.2)

/-- The `change.type` field of a database change record. -/
inductive ChangeType where
  | persistC
  | unpersistC
deriving DecidableEq

/-- `Array.findIndex` over messages (JavaScript's `-1` becomes `none`). -/
def findIndexP (p : Message → Bool) : List Message → Option Nat
  | [] => none
  | m :: rest => if p m then some 0 else (findIndexP p rest).map (· + 1)

/-- `Array.splice(idx, 1)`: remove the element at `idx` when present. -/
def spliceOne : List Message → Nat → List Message
  | [], _ => []
  | _ :: rest, 0 => rest
  | m :: rest, n + 1 => m :: spliceOne rest n

/-- Embeds the `Message`-class branch of `_onDataChanged` (lines 120–146):
the single-draft persist/unpersist fast paths, falling back to a full
`_fetchFromCache` cycle otherwise.  Returns the new state, the number of
`trigger` calls, and whether `_fetchFromCache` was invoked (the asynchronous
refetch itself is a separate cycle, so only the request is recorded). -/
def onDataChanged (env : Env) (typ : ChangeType) (objects : List Message)
    (s : StoreState) : StoreState × Nat × Bool :=
  match s.thread with
  | none => (s, 0, false)
  | some th =>
    let inDisplayedThread := objects.any fun obj => obj.threadId == th.id
    if !inDisplayedThread then (s, 0, false)
    else
      match objects with
      | [item] =>
        if item.draft then
          let itemIndex := findIndexP (fun msg => msg.id == item.id) s.items
          match typ, itemIndex with
          | ChangeType.persistC, none =>
            let items1 := (s.items ++ [item]).filter fun m => !(m.isHidden)
            let items2 := sortItemsForDisplay items1
            let s1 := expandItemsToDefault env { s with items := items2 }
            (s1, 1, false)
          | ChangeType.unpersistC, some idx =>
            let items1 := s.items.filter fun m => !(m.isHidden)
            let items2 := spliceOne items1 idx
            let s1 := expandItemsToDefault env { s with items := items2 }
            (s1, 1, false)
          | _, _ => (s, 0, true)
        else (s, 0, true)
      | _ => (s, 0, true)

/-- Simulation state for the focus-change debounce: the store, whether the
100ms `_onFocusChangedTimer` is armed, the thread currently focused in the
external FocusedContentStore, and the log of applied transitions (each entry
is the focused thread id a transition reset state for and launched a fetch
for). -/
structure FocusSim where
  store : StoreState
  timerArmed : Bool
  focusedExternal : Option Thread
  appliedLog : List (Option String)

/-- Embeds `_onApplyFocusChange`: read the externally focused thread, clear
the read-marker key on null focus, no-op when the target equals the current
thread, otherwise reset all derived state, notify, and fetch (the reset and
fetch are together recorded as one `appliedLog` entry). -/
def onApplyFocusChange (sim : FocusSim) : FocusSim :=
  let focused := sim.focusedExternal
  let sim1 :=
    if focused.isNone then
      { sim with store := { sim.store with lastMarkedAsReadThreadId := none } }
    else sim
  if sim1.store.thread.map Thread.id = focused.map Thread.id then sim1
  else
    { sim1 with
      store := { sim1.store with
                  thread := focused
                  items := []
                  itemsLoading := true
                  showingHiddenItems := false
                  itemsExpanded := emEmpty }
      appliedLog := sim1.appliedLog ++ [focused.map Thread.id] }

/-- Embeds `_onFocusChanged` for an event arriving within the 100ms window of
any pending timer (so the pending timer never fires in between): the external
focus is updated, the transition is applied immediately when no timer is
armed (leading edge), and a fresh 100ms timer is armed. -/
def onFocusChanged (sim : FocusSim) (newFocus : Option Thread) : FocusSim :=
  let sim1 := { sim with focusedExternal := newFocus }
  let sim2 := if sim1.timerArmed then sim1 else onApplyFocusChange sim1
  { sim2 with timerArmed := true }

/-- The armed timer firing after the burst: clear it and apply. -/
def timerFire (sim : FocusSim) : FocusSim :=
  onApplyFocusChange { sim with timerArmed := false }

/-- A burst of focus-change events each within 100ms of the previous one,
followed by the trailing timer expiry once the burst ends. -/
def runBurst (sim : FocusSim) (events : List (Option Thread)) : FocusSim :=
  timerFire (events.foldl onFocusChanged sim)

/-- Modelled from the spec: the unpersist fast path as claim C7 describes it
("remove it by id, reapply filter/sort/expansion") — remove the object by id,
reapply the hidden filter, re-run the re-threading sort, and recompute
expansion defaults.  Used only to compare the claimed behavior against the
embedded code, which performs no re-sort on this path. -/
def unpersistFastPathClaimed (env : Env) (item : Message) (s : StoreState) : StoreState :=
  let items1 := s.items.filter fun m => !(m.id == item.id)
  let items2 := items1.filter fun m => !(m.isHidden)
  let items3 := sortItemsForDisplay items2
  expandItemsToDefault env { s with items := items3 }

/-- Bounded existence test used to characterise `expandLoopGo`: does the list
hold, at some offset `j` from the running index, an item with id `k`
satisfying the loop condition at index `idx + j`? -/
def anyIdxHit (cond : Nat → Message → Bool) (k : String) : Nat → List Message → Bool
  | _, [] => false
  | idx, item :: rest => ((item.id == k) && cond idx item) || anyIdxHit cond k (idx + 1) rest

namespace Ex

/-- Concrete message builder for the worked examples. -/
def mkMsg (id tid : String) (draft unread : Bool) (date : Nat) (hmid : String)
    (reply : Option String) : Message :=
  { id := id, threadId := tid, draft := draft, unread := unread, date := date,
    body := some "body", snippet := none, headerMessageId := hmid,
    replyToHeaderMessageId := reply, folder := ⟨"inbox"⟩, hidden := false }

def envC : Env := ⟨"inbox"⟩

/-- Base message M1 of the re-threading example. -/
def M1c : Message := mkMsg "m1" "T" false false 1 "h1" none
/-- Base message M2 of the re-threading example. -/
def M2c : Message := mkMsg "m2" "T" false false 2 "h2" none
/-- Draft D replying to M1's `headerMessageId`. -/
def Dc : Message := mkMsg "d" "T" true false 3 "hd" (some "h1")

/-- Unread first message of the expansion-defaults example. -/
def Uc : Message := mkMsg "u" "T" false true 1 "hu" none
/-- Read, non-last message of the expansion-defaults example. -/
def Rc : Message := mkMsg "r" "T" false false 2 "hr" none
/-- Read, last message of the expansion-defaults example. -/
def Lc : Message := mkMsg "l" "T" false false 3 "hl" none

def tA : Thread := ⟨"A"⟩
def tB : Thread := ⟨"B"⟩
def tC : Thread := ⟨"C"⟩

/-- Store state with no focused thread and empty derived state. -/
def s0 : StoreState :=
  { showingHiddenItems := false, items := [], thread := none,
    itemsExpanded := emEmpty, itemsLoading := false, lastMarkedAsReadThreadId := none }

/-- Idle debounce simulation state (no timer armed, nothing focused). -/
def sim0 : FocusSim :=
  { store := s0, timerArmed := false, focusedExternal := none, appliedLog := [] }

/-- Debounce simulation state with the 100ms timer already armed. -/
def simArmed : FocusSim :=
  { store := s0, timerArmed := true, focusedExternal := none, appliedLog := [] }

/-- A message of thread A, as returned by a fetch launched while A-adjacent
state was current. -/
def mA : Message := mkMsg "ma" "A" false false 1 "ha" none
/-- A message of thread B. -/
def mB : Message := mkMsg "mb" "B" false false 1 "hb" none

/-- Store state focused on thread B and displaying B's message. -/
def sB : StoreState :=
  { showingHiddenItems := false, items := [mB], thread := some tB,
    itemsExpanded := emEmpty, itemsLoading := false, lastMarkedAsReadThreadId := none }

/-- Unread draft of thread T. -/
def D1 : Message := mkMsg "d1" "T" true true 1 "hd1" none
/-- Read draft of thread T. -/
def D2 : Message := mkMsg "d2" "T" true false 2 "hd2" none

/-- Store state focused on T whose expansion map marks both displayed drafts
default-expanded, as `_expandItemsToDefault` leaves it. -/
def sExp : StoreState :=
  { showingHiddenItems := false, items := [D1, D2], thread := some ⟨"T"⟩,
    itemsExpanded := expandDefaults [D1, D2] emEmpty, itemsLoading := false,
    lastMarkedAsReadThreadId := none }

/-- Draft whose `headerMessageId` is the reply target of `Dr`. -/
def D2h : Message := mkMsg "d2h" "T" true false 1 "h" none
/-- Reply draft replying to header "h". -/
def Dr : Message := mkMsg "dr" "T" true false 2 "hdr" (some "h")
/-- Ordinary message of thread T. -/
def M2n : Message := mkMsg "m2n" "T" false false 3 "hm2" none

/-- Store state focused on T displaying `[D2h, Dr, M2n]` (the re-threading
sort placed `Dr` directly after its reply target `D2h`). -/
def sRs : StoreState :=
  { showingHiddenItems := false, items := [D2h, Dr, M2n], thread := some ⟨"T"⟩,
    itemsExpanded := emEmpty, itemsLoading := false, lastMarkedAsReadThreadId := none }

/-- Draft to be persisted twice in the idempotence example. -/
def Dp : Message := mkMsg "dp" "T" true false 5 "hdp" none

/-- Store state focused on T displaying two ordinary messages. -/
def sP : StoreState :=
  { showingHiddenItems := false, items := [M1c, M2c], thread := some ⟨"T"⟩,
    itemsExpanded := emEmpty, itemsLoading := false, lastMarkedAsReadThreadId := none }

/-- A message in a hidden folder. -/
def mSpam : Message :=
  { mkMsg "sp" "T" false false 4 "hsp" none with folder := ⟨"spam"⟩ }

/-- Store state with the show-hidden toggle active and a spam item present. -/
def sShow : StoreState :=
  { showingHiddenItems := true, items := [M1c, mSpam], thread := some ⟨"T"⟩,
    itemsExpanded := emEmpty, itemsLoading := false, lastMarkedAsReadThreadId := none }

/-- Message with neither body nor snippet. -/
def mNoBody : Message :=
  { mkMsg "nb" "A" false false 1 "hnb" none with body := none, snippet := none }

end Ex

/-! Helper lemmas about the re-threading sort. -/

theorem insertAfterMatch_no_match (d : Message) (xs : List Message)
    (h : ∀ m ∈ xs, d.replyToHeaderMessageId ≠ some m.headerMessageId) :
    insertAfterMatch d xs = xs ++ [d] := by
  induction xs with
  | nil => rfl
  | cons x rest ih =>
    have hx : ¬(d.replyToHeaderMessageId = some x.headerMessageId) := h x (by simp)
    simp only [insertAfterMatch, if_neg hx, List.cons_append]
    rw [ih fun m hm => h m (by simp [hm])]

theorem insertAfterMatch_first_match (d m : Message) (pre post : List Message)
    (hpre : ∀ x ∈ pre, d.replyToHeaderMessageId ≠ some x.headerMessageId)
    (hm : d.replyToHeaderMessageId = some m.headerMessageId) :
    insertAfterMatch d (pre ++ m :: post) = pre ++ m :: d :: post := by
  induction pre with
  | nil => simp [insertAfterMatch, hm]
  | cons x rest ih =>
    have hx : ¬(d.replyToHeaderMessageId = some x.headerMessageId) := hpre x (by simp)
    simp only [List.cons_append, insertAfterMatch, if_neg hx, List.append_eq]
    rw [ih fun y hy => hpre y (by simp [hy])]

theorem sortItemsForDisplay_single_draft (pre post : List Message) (d : Message)
    (hbase : ∀ m ∈ pre ++ post, isReplyDraft m = false)
    (hd : isReplyDraft d = true) :
    sortItemsForDisplay (pre ++ d :: post) = insertAfterMatch d (pre ++ post) := by
  have hpre : ∀ m ∈ pre, isReplyDraft m = false := fun m hm => hbase m (by simp [hm])
  have hpost : ∀ m ∈ post, isReplyDraft m = false := fun m hm => hbase m (by simp [hm])
  unfold sortItemsForDisplay
  have h1 : (pre ++ d :: post).filter isReplyDraft = [d] := by
    rw [List.filter_append]
    rw [List.filter_eq_nil_iff.mpr (by intro a ha; simp [hpre a ha])]
    simp only [List.nil_append, List.filter_cons, hd, if_pos]
    rw [List.filter_eq_nil_iff.mpr (by intro a ha; simp [hpost a ha])]
  have h2 : (pre ++ d :: post).filter (fun m => !(isReplyDraft m)) = pre ++ post := by
    rw [List.filter_append]
    rw [List.filter_eq_self.mpr (by intro a ha; simp [hpre a ha])]
    simp only [List.filter_cons, hd]
    rw [List.filter_eq_self.mpr (by intro a ha; simp [hpost a ha])]
    simp
  rw [h1, h2]
  rfl

/-- C3: the re-threading sort removes each draft carrying an in-reply-to
reference from the base order and inserts it immediately after the first
message whose `headerMessageId` equals that reference, appending it at the
end when no such message exists; in particular `[M1, M2]` with a draft `D`
replying to `M1` yields `[M1, D, M2]`. -/
theorem rethreading_sort_spec :
    (∀ (pre post : List Message) (d : Message),
        (∀ m ∈ pre ++ post, isReplyDraft m = false) → isReplyDraft d = true →
        sortItemsForDisplay (pre ++ d :: post) = insertAfterMatch d (pre ++ post)) ∧
    (∀ (d : Message) (xs : List Message),
        (∀ m ∈ xs, d.replyToHeaderMessageId ≠ some m.headerMessageId) →
        insertAfterMatch d xs = xs ++ [d]) ∧
    (∀ (d m : Message) (pre post : List Message),
        (∀ x ∈ pre, d.replyToHeaderMessageId ≠ some x.headerMessageId) →
        d.replyToHeaderMessageId = some m.headerMessageId →
        insertAfterMatch d (pre ++ m :: post) = pre ++ m :: d :: post) ∧
    sortItemsForDisplay [Ex.M1c, Ex.M2c, Ex.Dc] = [Ex.M1c, Ex.Dc, Ex.M2c] :=
  ⟨sortItemsForDisplay_single_draft, insertAfterMatch_no_match,
   insertAfterMatch_first_match, by decide⟩

/-- Witness for C3 at the concrete `[M1, M2]`-with-draft example. -/
theorem rethreading_sort_spec_witness :
    ((∀ m ∈ [Ex.M1c] ++ [Ex.M2c], isReplyDraft m = false) ∧ isReplyDraft Ex.Dc = true) ∧
    sortItemsForDisplay ([Ex.M1c] ++ Ex.Dc :: [Ex.M2c]) =
      insertAfterMatch Ex.Dc ([Ex.M1c] ++ [Ex.M2c]) :=
  ⟨⟨by decide, by decide⟩,
   rethreading_sort_spec.1 [Ex.M1c] [Ex.M2c] Ex.Dc (by decide) (by decide)⟩

/-- C10: with the show-hidden toggle active, `items()` returns the whole
cached list unfiltered and `numberOfHiddenItems()` returns 0. -/
theorem show_hidden_accessors (env : Env) (s : StoreState)
    (h : s.showingHiddenItems = true) :
    items env s = s.items ∧ numberOfHiddenItems env s = 0 := by
  have hi : items env s = s.items := by simp [items, h]
  exact ⟨hi, by simp [numberOfHiddenItems, hi]⟩

/-- Witness for C10 at a concrete state holding a spam item. -/
theorem show_hidden_accessors_witness :
    Ex.sShow.showingHiddenItems = true ∧
    (items Ex.envC Ex.sShow = Ex.sShow.items ∧ numberOfHiddenItems Ex.envC Ex.sShow = 0) :=
  ⟨rfl, show_hidden_accessors Ex.envC Ex.sShow rfl⟩

/-- C1 (code-bug evidence): a fetch cycle completed after the focus moved to
thread B still overwrites the displayed list with the stale result and
notifies observers — the continuation in `_fetchFromCachePart2` performs no
check that the launching thread is still focused (the original function,
kept in a comment in the source, performed exactly that check). -/
theorem stale_fetch_result_applied :
    Ex.sB.thread = some Ex.tB ∧
    Ex.mA.threadId ≠ Ex.tB.id ∧
    (fetchFromCachePart2 Ex.envC [[Ex.mA]] Ex.sB).1.items = [Ex.mA] ∧
    (fetchFromCachePart2 Ex.envC [[Ex.mA]] Ex.sB).1.thread = some Ex.tB ∧
    (fetchFromCachePart2 Ex.envC [[Ex.mA]] Ex.sB).2 = 1 := by
  refine ⟨rfl, by decide, by decide, rfl, rfl⟩

/-- C2 (code-bug evidence): `_fetchFromCachePart2` calls `trigger` once per
per-thread sub-query, so a completed fetch cycle with `n` sub-queries
notifies observers `n` times — twice already for two sub-queries — although
the comment retained in the source promises a single trigger when ready. -/
theorem trigger_once_per_subquery :
    (∀ (env : Env) (results : List (List Message)) (s : StoreState),
        (fetchFromCachePart2 env results s).2 = results.length) ∧
    (fetchFromCachePart2 Ex.envC [[Ex.mA], [Ex.mB]] Ex.sB).2 = 2 := by
  constructor
  · intro env results s
    have key : ∀ (rs : List (List Message)) (acc : List Message × StoreState × Nat),
        (rs.foldl (part2Step env) acc).2.2 = acc.2.2 + rs.length := by
      intro rs
      induction rs with
      | nil => intro acc; simp
      | cons a rest ih =>
        intro acc
        rw [List.foldl_cons, ih]
        have : (part2Step env acc a).2.2 = acc.2.2 + 1 := rfl
        rw [this, List.length_cons]
        omega
    unfold fetchFromCachePart2
    rw [key]
    simp
  · rfl

/-! Field lemmas for the focus-change debounce machinery. -/

theorem onApply_ext (sim : FocusSim) :
    (onApplyFocusChange sim).focusedExternal = sim.focusedExternal := by
  unfold onApplyFocusChange
  by_cases hn : sim.focusedExternal.isNone <;>
    by_cases he : sim.store.thread.map Thread.id = sim.focusedExternal.map Thread.id <;>
    simp [hn, he]

theorem onApply_log (sim : FocusSim) :
    (onApplyFocusChange sim).appliedLog =
      if sim.store.thread.map Thread.id = sim.focusedExternal.map Thread.id
      then sim.appliedLog
      else sim.appliedLog ++ [sim.focusedExternal.map Thread.id] := by
  unfold onApplyFocusChange
  by_cases hn : sim.focusedExternal.isNone <;>
    by_cases he : sim.store.thread.map Thread.id = sim.focusedExternal.map Thread.id <;>
    simp [hn, he]

theorem onApply_threadIds (sim : FocusSim) :
    (onApplyFocusChange sim).store.thread.map Thread.id =
      sim.focusedExternal.map Thread.id := by
  unfold onApplyFocusChange
  by_cases hn : sim.focusedExternal.isNone <;>
    by_cases he : sim.store.thread.map Thread.id = sim.focusedExternal.map Thread.id <;>
    simp [hn, he]

theorem onFocusChanged_armed_flag (sim : FocusSim) (f : Option Thread) :
    (onFocusChanged sim f).timerArmed = true := by
  unfold onFocusChanged
  by_cases h : sim.timerArmed <;> simp [h]

theorem onFocusChanged_ext (sim : FocusSim) (f : Option Thread) :
    (onFocusChanged sim f).focusedExternal = f := by
  unfold onFocusChanged
  by_cases h : sim.timerArmed <;> simp [h, onApply_ext]

theorem onFocusChanged_log_armed (sim : FocusSim) (f : Option Thread)
    (h : sim.timerArmed = true) :
    (onFocusChanged sim f).appliedLog = sim.appliedLog := by
  unfold onFocusChanged
  simp [h]

theorem onFocusChanged_thread_armed (sim : FocusSim) (f : Option Thread)
    (h : sim.timerArmed = true) :
    (onFocusChanged sim f).store.thread = sim.store.thread := by
  unfold onFocusChanged
  simp [h]

theorem onFocusChanged_log_idle (sim : FocusSim) (f : Option Thread)
    (h : sim.timerArmed = false) :
    (onFocusChanged sim f).appliedLog =
      if sim.store.thread.map Thread.id = f.map Thread.id then sim.appliedLog
      else sim.appliedLog ++ [f.map Thread.id] := by
  unfold onFocusChanged
  simp only [h, Bool.false_eq_true, if_false, onApply_log]

theorem onFocusChanged_threadIds_idle (sim : FocusSim) (f : Option Thread)
    (h : sim.timerArmed = false) :
    (onFocusChanged sim f).store.thread.map Thread.id = f.map Thread.id := by
  unfold onFocusChanged
  simp only [h, Bool.false_eq_true, if_false, onApply_threadIds]

theorem timerFire_log (sim : FocusSim) :
    (timerFire sim).appliedLog =
      if sim.store.thread.map Thread.id = sim.focusedExternal.map Thread.id
      then sim.appliedLog
      else sim.appliedLog ++ [sim.focusedExternal.map Thread.id] := by
  unfold timerFire
  rw [onApply_log]

/-- C4 counterexample: starting idle, a burst of three focus changes (A, B, C,
each within 100ms of the previous) applies TWO transitions — the first
event's target on the leading edge and the last event's target on the
trailing edge — not exactly one. -/
theorem debounce_burst_two_transitions :
    (runBurst Ex.sim0 [some Ex.tA, some Ex.tB, some Ex.tC]).appliedLog
        = [some "A", some "C"] ∧
    (runBurst Ex.sim0 [some Ex.tA, some Ex.tB, some Ex.tC]).appliedLog.length ≠ 1 := by
  refine ⟨by decide, by decide⟩

/-- C4 (amended): when a debounce timer is already pending at the start of the
burst, exactly one transition is applied, targeting the last event's entity
(none at all when it already equals the current thread); from idle, the first
event's target is additionally applied immediately on the leading edge, and
the tail transition targets the last event's entity relative to the first —
so the intermediate target is never applied and never fetched. -/
theorem debounce_burst_amended :
    (∀ (sim : FocusSim) (a b c : Option Thread),
        sim.timerArmed = true →
        (runBurst sim [a, b, c]).appliedLog =
          sim.appliedLog ++
            (if sim.store.thread.map Thread.id = c.map Thread.id then []
             else [c.map Thread.id])) ∧
    (∀ (sim : FocusSim) (a b c : Option Thread),
        sim.timerArmed = false →
        (runBurst sim [a, b, c]).appliedLog =
          (sim.appliedLog ++
            (if sim.store.thread.map Thread.id = a.map Thread.id then []
             else [a.map Thread.id])) ++
            (if a.map Thread.id = c.map Thread.id then []
             else [c.map Thread.id])) := by
  constructor
  · intro sim a b c h
    have a1 : (onFocusChanged sim a).timerArmed = true := onFocusChanged_armed_flag sim a
    have a2 : (onFocusChanged (onFocusChanged sim a) b).timerArmed = true :=
      onFocusChanged_armed_flag _ b
    simp only [runBurst, List.foldl_cons, List.foldl_nil]
    rw [timerFire_log, onFocusChanged_ext,
      onFocusChanged_thread_armed _ c a2, onFocusChanged_thread_armed _ b a1,
      onFocusChanged_thread_armed _ a h,
      onFocusChanged_log_armed _ c a2, onFocusChanged_log_armed _ b a1,
      onFocusChanged_log_armed _ a h]
    by_cases he : sim.store.thread.map Thread.id = c.map Thread.id <;> simp [he]
  · intro sim a b c h
    have a1 : (onFocusChanged sim a).timerArmed = true := onFocusChanged_armed_flag sim a
    have a2 : (onFocusChanged (onFocusChanged sim a) b).timerArmed = true :=
      onFocusChanged_armed_flag _ b
    simp only [runBurst, List.foldl_cons, List.foldl_nil]
    rw [timerFire_log, onFocusChanged_ext,
      onFocusChanged_thread_armed _ c a2, onFocusChanged_thread_armed _ b a1,
      onFocusChanged_threadIds_idle sim a h,
      onFocusChanged_log_armed _ c a2, onFocusChanged_log_armed _ b a1,
      onFocusChanged_log_idle sim a h]
    by_cases hac : a.map Thread.id = c.map Thread.id
    · by_cases hsa : sim.store.thread.map Thread.id = a.map Thread.id
      · simp [hac, hsa, hsa.trans hac]
      · have hsc : ¬(sim.store.thread.map Thread.id = c.map Thread.id) :=
          fun hh => hsa (hh.trans hac.symm)
        simp [hac, hsa, hsc]
    · by_cases hsa : sim.store.thread.map Thread.id = a.map Thread.id
      · simp [hac, hsa]
      · simp [hac, hsa]

/-- Witness for the amended C4: a burst over an armed timer applies only the
last target; a burst from idle applies the first and the last. -/
theorem debounce_burst_amended_witness :
    (Ex.simArmed.timerArmed = true ∧
      (runBurst Ex.simArmed [some Ex.tA, some Ex.tB, some Ex.tC]).appliedLog =
        Ex.simArmed.appliedLog ++
          (if Ex.simArmed.store.thread.map Thread.id = (some Ex.tC).map Thread.id then []
           else [(some Ex.tC).map Thread.id])) ∧
    (Ex.sim0.timerArmed = false ∧
      (runBurst Ex.sim0 [some Ex.tA, some Ex.tB, some Ex.tC]).appliedLog =
        (Ex.sim0.appliedLog ++
          (if Ex.sim0.store.thread.map Thread.id = (some Ex.tA).map Thread.id then []
           else [(some Ex.tA).map Thread.id])) ++
          (if (some Ex.tA).map Thread.id = (some Ex.tC).map Thread.id then []
           else [(some Ex.tC).map Thread.id])) :=
  ⟨⟨rfl, debounce_burst_amended.1 Ex.simArmed (some Ex.tA) (some Ex.tB) (some Ex.tC) rfl⟩,
   ⟨rfl, debounce_burst_amended.2 Ex.sim0 (some Ex.tA) (some Ex.tB) (some Ex.tC) rfl⟩⟩

/-- C6 counterexample: the unpersist fast path removes draft D1 from the list
but leaves its id in the expansion map — the invariant "every id in the
expansion map belongs to a message in the current list" fails after the
rebuild. -/
theorem stale_expansion_entry_retained :
    Ex.D1.id = "d1" ∧
    (emGet ((onDataChanged Ex.envC ChangeType.unpersistC [Ex.D1] Ex.sExp).1.itemsExpanded)
        "d1").isSome = true ∧
    (∀ m ∈ (onDataChanged Ex.envC ChangeType.unpersistC [Ex.D1] Ex.sExp).1.items,
        m.id ≠ "d1") := by
  refine ⟨rfl, by decide, by decide⟩

/-- C7 counterexample: the unpersist fast path performs no re-threading sort.
Removing the draft `D2h` (the reply target of the reply-draft `Dr`) leaves
the list as `[Dr, M2n]`, while the behavior the claim describes — remove by
id, filter, re-sort, re-expand — would produce `[M2n, Dr]`. -/
theorem unpersist_no_resort :
    ((onDataChanged Ex.envC ChangeType.unpersistC [Ex.D2h] Ex.sRs).1.items).map Message.id
        = ["dr", "m2n"] ∧
    ((unpersistFastPathClaimed Ex.envC Ex.D2h Ex.sRs).items).map Message.id
        = ["m2n", "dr"] ∧
    (onDataChanged Ex.envC ChangeType.unpersistC [Ex.D2h] Ex.sRs).1.items ≠
      (unpersistFastPathClaimed Ex.envC Ex.D2h Ex.sRs).items := by
  refine ⟨by decide, by decide, by decide⟩

/-! Helper lemmas about the expansion map and `_expandItemsToDefault`. -/

theorem emGet_emSet_self (em : ExpMap) (k : String) (v : ExpandKind) :
    emGet (emSet em k v) k = some v := by
  simp [emGet, emSet]

theorem emGet_emSet_ne (em : ExpMap) (k k' : String) (v : ExpandKind)
    (h : k' ≠ k) : emGet (emSet em k v) k' = emGet em k' := by
  simp [emGet, emSet, h]

theorem expandLoopGo_emGet (cond : Nat → Message → Bool) (k : String) :
    ∀ (l : List Message) (idx : Nat) (em : ExpMap),
      emGet (expandLoopGo cond idx l em) k =
        if anyIdxHit cond k idx l then some ExpandKind.defaultK else emGet em k := by
  intro l
  induction l with
  | nil => intro idx em; simp [expandLoopGo, anyIdxHit]
  | cons item rest ih =>
    intro idx em
    rw [expandLoopGo, ih]
    by_cases hrest : anyIdxHit cond k (idx + 1) rest
    · simp [anyIdxHit, hrest]
    · by_cases hcond : cond idx item
      · by_cases hk : item.id = k
        · subst hk
          simp [anyIdxHit, hrest, hcond, emGet_emSet_self]
        · have : k ≠ item.id := fun hh => hk hh.symm
          simp [anyIdxHit, hrest, hcond, hk, emGet_emSet_ne _ _ _ _ this]
      · simp [anyIdxHit, hrest, hcond]

theorem anyIdxHit_iff (cond : Nat → Message → Bool) (k : String) :
    ∀ (l : List Message) (idx : Nat),
      anyIdxHit cond k idx l = true ↔
        ∃ j, ∃ h : j < l.length,
          (l.get ⟨j, h⟩).id = k ∧ cond (idx + j) (l.get ⟨j, h⟩) = true := by
  intro l
  induction l with
  | nil => intro idx; simp [anyIdxHit]
  | cons item rest ih =>
    intro idx
    rw [anyIdxHit]
    constructor
    · intro h
      rcases Bool.or_eq_true_iff.mp h with hhd | htl
      · rcases Bool.and_eq_true_iff.mp hhd with ⟨h1, h2⟩
        exact ⟨0, by simp, by simpa using beq_iff_eq.mp h1, by simpa using h2⟩
      · rcases (ih (idx + 1)).mp htl with ⟨j, hj, hid, hc⟩
        refine ⟨j + 1, by simpa using Nat.succ_lt_succ hj, ?_, ?_⟩
        · simpa using hid
        · have : idx + 1 + j = idx + (j + 1) := by omega
          rw [← this]
          simpa using hc
    · rintro ⟨j, hj, hid, hc⟩
      apply Bool.or_eq_true_iff.mpr
      match j, hj, hid, hc with
      | 0, hj, hid, hc =>
        left
        apply Bool.and_eq_true_iff.mpr
        refine ⟨beq_iff_eq.mpr (by simpa using hid), ?_⟩
        simpa using hc
      | j' + 1, hj, hid, hc =>
        right
        apply (ih (idx + 1)).mpr
        have hj' : j' < rest.length := by simpa using hj
        refine ⟨j', hj', by simpa using hid, ?_⟩
        have harith : idx + 1 + j' = idx + (j' + 1) := by omega
        rw [harith]
        simpa using hc

theorem lastDraftIdxGo_cases :
    ∀ (l : List Message) (idx : Nat) (acc : Option Nat),
      ((∀ m ∈ l, m.draft = false) ∧ lastDraftIdxGo idx acc l = acc)
      ∨ (∃ j, ∃ h : j < l.length, (l.get ⟨j, h⟩).draft = true
          ∧ (∀ j' (hj' : j' < l.length), j < j' → (l.get ⟨j', hj'⟩).draft = false)
          ∧ lastDraftIdxGo idx acc l = some (idx + j)) := by
  intro l
  induction l with
  | nil => intro idx acc; exact Or.inl ⟨by simp, rfl⟩
  | cons item rest ih =>
    intro idx acc
    by_cases hd : item.draft
    · rcases ih (idx + 1) (some idx) with ⟨hall, heq⟩ | ⟨j, hj, hjd, hjl, heq⟩
      · refine Or.inr ⟨0, by simp, by simpa using hd, ?_, ?_⟩
        · intro j' hj' hlt
          match j', hj' with
          | j'' + 1, hj' =>
            have hj'' : j'' < rest.length := by simpa using hj'
            rw [List.get_cons_succ]
            exact hall (rest.get ⟨j'', hj''⟩) (rest.get_mem j'' hj'')
        · rw [lastDraftIdxGo, if_pos hd, heq]
          simp
      · refine Or.inr ⟨j + 1, by simpa using Nat.succ_lt_succ hj, by simpa using hjd, ?_, ?_⟩
        · intro j' hj' hlt
          match j', hj' with
          | j'' + 1, hj' =>
            have hj'' : j'' < rest.length := by simpa using hj'
            have hlt' : j < j'' := by omega
            rw [List.get_cons_succ]
            exact hjl j'' hj'' hlt'
        · rw [lastDraftIdxGo, if_pos hd, heq]
          congr 1
          omega
    · rcases ih (idx + 1) acc with ⟨hall, heq⟩ | ⟨j, hj, hjd, hjl, heq⟩
      · refine Or.inl ⟨?_, ?_⟩
        · intro m hm
          rcases List.mem_cons.mp hm with rfl | hm'
          · simpa using hd
          · exact hall m hm'
        · rw [lastDraftIdxGo, if_neg hd, heq]
      · refine Or.inr ⟨j + 1, by simpa using Nat.succ_lt_succ hj, by simpa using hjd, ?_, ?_⟩
        · intro j' hj' hlt
          match j', hj' with
          | j'' + 1, hj' =>
            have hj'' : j'' < rest.length := by simpa using hj'
            have hlt' : j < j'' := by omega
            rw [List.get_cons_succ]
            exact hjl j'' hj'' hlt'
        · rw [lastDraftIdxGo, if_neg hd, heq]
          congr 1
          omega

theorem lastDraftIdx_eq_some_iff (v : List Message) (i : Nat) :
    lastDraftIdx v = some i ↔
      ∃ h : i < v.length, (v.get ⟨i, h⟩).draft = true
        ∧ ∀ j (hj : j < v.length), i < j → (v.get ⟨j, hj⟩).draft = false := by
  constructor
  · intro h
    rcases lastDraftIdxGo_cases v 0 none with ⟨_, heq⟩ | ⟨j, hj, hjd, hjl, heq⟩
    · rw [lastDraftIdx, heq] at h
      cases h
    · rw [lastDraftIdx, heq] at h
      have : j = i := by simpa using h
      subst this
      exact ⟨hj, hjd, hjl⟩
  · rintro ⟨hi, hd, hl⟩
    rcases lastDraftIdxGo_cases v 0 none with ⟨hall, heq⟩ | ⟨j, hj, hjd, hjl, heq⟩
    · have hfalse := hall (v.get ⟨i, hi⟩) (v.get_mem i hi)
      rw [hfalse] at hd
      cases hd
    · have hij : i = j := by
        rcases Nat.lt_trichotomy i j with hlt | heq' | hgt
        · have hfalse := hl j hj hlt
          rw [hfalse] at hjd
          cases hjd
        · exact heq'
        · have hfalse := hjl i hi hgt
          rw [hfalse] at hd
          cases hd
      rw [lastDraftIdx, heq, hij]
      simp

/-- C5: after recomputing expansion defaults over a visible list (with
distinct ids, starting from an empty map), a message is marked
default-expanded iff it is unread, or it is the last draft in visible order,
or it is the last message in visible order; for the list `[U, R, L]` the map
marks `U` and `L` and leaves `R` absent. -/
theorem expansion_defaults_iff :
    (∀ (visibleItems : List Message),
        (visibleItems.map Message.id).Nodup →
        ∀ (i : Nat) (hi : i < visibleItems.length),
          (emGet (expandDefaults visibleItems emEmpty) ((visibleItems.get ⟨i, hi⟩).id)
              = some ExpandKind.defaultK
            ↔ ((visibleItems.get ⟨i, hi⟩).unread = true
               ∨ ((visibleItems.get ⟨i, hi⟩).draft = true
                  ∧ ∀ (j : Nat) (hj : j < visibleItems.length), i < j →
                      (visibleItems.get ⟨j, hj⟩).draft = false)
               ∨ i = visibleItems.length - 1))) ∧
    (emGet (expandDefaults [Ex.Uc, Ex.Rc, Ex.Lc] emEmpty) "u" = some ExpandKind.defaultK
     ∧ emGet (expandDefaults [Ex.Uc, Ex.Rc, Ex.Lc] emEmpty) "r" = none
     ∧ emGet (expandDefaults [Ex.Uc, Ex.Rc, Ex.Lc] emEmpty) "l" = some ExpandKind.defaultK) := by
  refine ⟨?_, by decide, by decide, by decide⟩
  intro v hnd i hi
  rw [expandDefaults, expandLoopGo_emGet]
  have hids : ∀ (j : Nat) (hj : j < v.length),
      (v.get ⟨j, hj⟩).id = (v.get ⟨i, hi⟩).id → j = i := by
    intro j hj heq
    have h1 : (v.map Message.id).get ⟨j, by simpa using hj⟩ =
        (v.map Message.id).get ⟨i, by simpa using hi⟩ := by
      simp only [List.get_map]
      exact heq
    have := (List.Nodup.get_inj_iff hnd).mp h1
    simpa using Fin.mk.inj_iff.mp this
  constructor
  · intro h
    by_cases hhit : anyIdxHit
        (fun idx item => item.unread || (some idx == lastDraftIdx v)
          || (idx == v.length - 1)) ((v.get ⟨i, hi⟩).id) 0 v
    · rcases (anyIdxHit_iff _ _ v 0).mp hhit with ⟨j, hj, hid, hc⟩
      have hji : j = i := hids j hj hid
      subst hji
      simp only [Nat.zero_add] at hc
      rcases Bool.or_eq_true_iff.mp hc with hc1 | hc2
      · rcases Bool.or_eq_true_iff.mp hc1 with hu | hld
        · exact Or.inl hu
        · have hldi : lastDraftIdx v = some j := by
            have := (beq_iff_eq (a := some j) (b := lastDraftIdx v)).mp hld
            exact this.symm
          rcases (lastDraftIdx_eq_some_iff v j).mp hldi with ⟨h', hd, hl⟩
          exact Or.inr (Or.inl ⟨hd, hl⟩)
      · exact Or.inr (Or.inr (by simpa using hc2))
    · rw [if_neg hhit] at h
      cases h
  · intro h
    have hcond : ((v.get ⟨i, hi⟩).unread || (some i == lastDraftIdx v)
        || (i == v.length - 1)) = true := by
      rcases h with hu | ⟨hd, hl⟩ | hlast
      · rw [hu]
        simp
      · have : lastDraftIdx v = some i := (lastDraftIdx_eq_some_iff v i).mpr ⟨hi, hd, hl⟩
        simp [this]
      · simp [hlast]
    have hhit : anyIdxHit
        (fun idx item => item.unread || (some idx == lastDraftIdx v)
          || (idx == v.length - 1)) ((v.get ⟨i, hi⟩).id) 0 v = true := by
      apply (anyIdxHit_iff _ _ v 0).mpr
      exact ⟨i, hi, rfl, by simpa using hcond⟩
    rw [hhit]
    simp

/-- Witness for C5 at the `[U, R, L]` example, index 0 (the unread message). -/
theorem expansion_defaults_iff_witness :
    ([Ex.Uc, Ex.Rc, Ex.Lc].map Message.id).Nodup ∧
    (emGet (expandDefaults [Ex.Uc, Ex.Rc, Ex.Lc] emEmpty)
        (([Ex.Uc, Ex.Rc, Ex.Lc].get ⟨0, by decide⟩).id) = some ExpandKind.defaultK
      ↔ (([Ex.Uc, Ex.Rc, Ex.Lc].get ⟨0, by decide⟩).unread = true
         ∨ (([Ex.Uc, Ex.Rc, Ex.Lc].get ⟨0, by decide⟩).draft = true
            ∧ ∀ (j : Nat) (hj : j < ([Ex.Uc, Ex.Rc, Ex.Lc] : List Message).length), 0 < j →
                (([Ex.Uc, Ex.Rc, Ex.Lc] : List Message).get ⟨j, hj⟩).draft = false)
         ∨ 0 = ([Ex.Uc, Ex.Rc, Ex.Lc] : List Message).length - 1)) :=
  ⟨by decide, expansion_defaults_iff.1 [Ex.Uc, Ex.Rc, Ex.Lc] (by decide) 0 (by decide)⟩

/-- C6 (amended): expansion-default recomputation only ADDS entries, and any
entry it adds is the id of a message in the visible list it ran over; a focus
transition either leaves the expansion map untouched (no-op transition) or
resets it to empty.  Stale entries for removed messages are NOT dropped by
list rebuilds (see the counterexample). -/
theorem expansion_map_amended :
    (∀ (visibleItems : List Message) (em : ExpMap) (k : String),
        (emGet (expandDefaults visibleItems em) k).isSome = true →
        (emGet em k).isSome = true ∨ k ∈ visibleItems.map Message.id) ∧
    (∀ sim : FocusSim,
        (onApplyFocusChange sim).store.itemsExpanded = emEmpty
        ∨ (onApplyFocusChange sim).store.itemsExpanded = sim.store.itemsExpanded) := by
  constructor
  · intro v em k h
    rw [expandDefaults, expandLoopGo_emGet] at h
    by_cases hhit : anyIdxHit
        (fun idx item => item.unread || (some idx == lastDraftIdx v)
          || (idx == v.length - 1)) k 0 v
    · right
      rcases (anyIdxHit_iff _ _ v 0).mp hhit with ⟨j, hj, hid, _⟩
      exact List.mem_map.mpr ⟨v.get ⟨j, hj⟩, v.get_mem j hj, hid⟩
    · rw [if_neg hhit] at h
      exact Or.inl h
  · intro sim
    unfold onApplyFocusChange
    by_cases hn : sim.focusedExternal.isNone
    · simp only [hn, if_true]
      split
      · exact Or.inr rfl
      · exact Or.inl rfl
    · simp only [hn, Bool.false_eq_true, if_false]
      split
      · exact Or.inr rfl
      · exact Or.inl rfl

/-- Witness for the amended C6: an entry added over `[U]` names a message of
that list. -/
theorem expansion_map_amended_witness :
    (emGet (expandDefaults [Ex.Uc] emEmpty) "u").isSome = true ∧
    ((emGet emEmpty "u").isSome = true ∨ "u" ∈ [Ex.Uc].map Message.id) :=
  ⟨by decide, expansion_map_amended.1 [Ex.Uc] emEmpty "u" (by decide)⟩

/-! Helper lemmas about `findIndexP` and `spliceOne`. -/

theorem findIndexP_none (p : Message → Bool) :
    ∀ l, findIndexP p l = none → ∀ x ∈ l, p x = false := by
  intro l
  induction l with
  | nil => intro _ x hx; cases hx
  | cons m rest ih =>
    intro h x hx
    by_cases hm : p m
    · rw [findIndexP, if_pos hm] at h
      cases h
    · rw [findIndexP, if_neg hm] at h
      rcases List.mem_cons.mp hx with rfl | hx'
      · simpa using hm
      · exact ih (by simpa using h) x hx'

theorem findIndexP_some (p : Message → Bool) :
    ∀ l idx, findIndexP p l = some idx →
      ∃ pre x post, l = pre ++ x :: post ∧ pre.length = idx ∧ p x = true
        ∧ ∀ y ∈ pre, p y = false := by
  intro l
  induction l with
  | nil => intro idx h; cases h
  | cons m rest ih =>
    intro idx h
    by_cases hm : p m
    · rw [findIndexP, if_pos hm] at h
      injection h with h
      exact ⟨[], m, rest, rfl, by simpa using h, hm, by simp⟩
    · rw [findIndexP, if_neg hm] at h
      rcases Option.map_eq_some'.mp h with ⟨idx', h1, h2⟩
      rcases ih idx' h1 with ⟨pre, x, post, rfl, hlen, hx, hpre⟩
      refine ⟨m :: pre, x, post, rfl, by simp [hlen, ← h2], hx, ?_⟩
      intro y hy
      rcases List.mem_cons.mp hy with rfl | hy'
      · simpa using hm
      · exact hpre y hy'

theorem spliceOne_append (pre post : List Message) (x : Message) :
    spliceOne (pre ++ x :: post) pre.length = pre ++ post := by
  induction pre with
  | nil => rfl
  | cons m rest ih => simpa [spliceOne] using ih

theorem get?_append_middle (pre post : List Message) (x : Message) :
    (pre ++ x :: post).get? pre.length = some x := by
  induction pre with
  | nil => rfl
  | cons m rest ih => simpa using ih

theorem filter_not_hidden_eq_self (l : List Message)
    (h : ∀ m ∈ l, m.isHidden = false) :
    l.filter (fun m => !(m.isHidden)) = l :=
  List.filter_eq_self.mpr (by intro a ha; simp [h a ha])

/-- Reduction of the unpersist fast path when the guards are met. -/
theorem onDataChanged_unpersist_present (env : Env) (s : StoreState) (th : Thread)
    (item : Message) (idx : Nat)
    (hth : s.thread = some th) (hdr : item.draft = true)
    (htid : item.threadId = th.id)
    (hfind : findIndexP (fun msg => msg.id == item.id) s.items = some idx) :
    onDataChanged env ChangeType.unpersistC [item] s =
      (expandItemsToDefault env
        { s with items := spliceOne (s.items.filter fun m => !(m.isHidden)) idx },
       1, false) := by
  simp only [onDataChanged, hth, hfind]
  simp [htid, hdr]

/-- C7 (amended): the single-draft unpersist fast path removes exactly the
message found by id (no other message is removed), reapplies the hidden
filter and the expansion defaults, and notifies observers exactly once
without falling back to a refetch — but performs no re-threading sort (see
the counterexample). -/
theorem unpersist_fast_path_amended (env : Env) (s : StoreState) (th : Thread)
    (item : Message) (idx : Nat)
    (hth : s.thread = some th) (hdr : item.draft = true)
    (htid : item.threadId = th.id)
    (hidx : findIndexP (fun msg => msg.id == item.id) s.items = some idx)
    (hclean : ∀ m ∈ s.items, m.isHidden = false)
    (hnd : (s.items.map Message.id).Nodup) :
    (onDataChanged env ChangeType.unpersistC [item] s).2.1 = 1 ∧
    (onDataChanged env ChangeType.unpersistC [item] s).2.2 = false ∧
    (onDataChanged env ChangeType.unpersistC [item] s).1.items = spliceOne s.items idx ∧
    (∃ y, s.items.get? idx = some y ∧ y.id = item.id) ∧
    (∀ m ∈ (onDataChanged env ChangeType.unpersistC [item] s).1.items, m.id ≠ item.id) ∧
    (∀ m ∈ (onDataChanged env ChangeType.unpersistC [item] s).1.items, m ∈ s.items) ∧
    (onDataChanged env ChangeType.unpersistC [item] s).1.items.length + 1 = s.items.length ∧
    (onDataChanged env ChangeType.unpersistC [item] s).1.thread = s.thread := by
  have hredux := onDataChanged_unpersist_present env s th item idx hth hdr htid hidx
  rw [filter_not_hidden_eq_self s.items hclean] at hredux
  obtain ⟨pre, x, post, hsplit, hlen, hx, -⟩ :=
    findIndexP_some (fun msg => msg.id == item.id) s.items idx hidx
  have hxid : x.id = item.id := beq_iff_eq.mp hx
  have hsplice : spliceOne s.items idx = pre ++ post := by
    rw [hsplit, ← hlen]
    exact spliceOne_append pre post x
  have hxnot : x.id ∉ (pre ++ post).map Message.id := by
    have hnd' : ((pre ++ x :: post).map Message.id).Nodup := by
      rw [← hsplit]
      exact hnd
    rw [List.map_append, List.map_cons] at hnd'
    have hmid := List.nodup_middle.mp hnd'
    have h1 := (List.nodup_cons.mp hmid).1
    intro hmem
    rw [List.map_append] at hmem
    exact h1 hmem
  have hitems : (onDataChanged env ChangeType.unpersistC [item] s).1.items =
      spliceOne s.items idx := by
    rw [hredux]
    rfl
  refine ⟨by rw [hredux], by rw [hredux], hitems, ?_, ?_, ?_, ?_, by rw [hredux]; rfl⟩
  · refine ⟨x, ?_, hxid⟩
    rw [hsplit, ← hlen]
    exact get?_append_middle pre post x
  · intro m hm heq
    rw [hitems, hsplice] at hm
    exact hxnot (List.mem_map.mpr ⟨m, hm, heq.trans hxid.symm⟩)
  · intro m hm
    rw [hitems, hsplice] at hm
    rw [hsplit]
    rcases List.mem_append.mp hm with h | h
    · exact List.mem_append_left _ h
    · exact List.mem_append_right _ (List.mem_cons_of_mem x h)
  · rw [hitems, hsplice, hsplit]
    simp [List.length_append]
    omega

/-- Witness for the amended C7: unpersisting draft D1 from `[D1, D2]` removes
exactly D1, triggers once, and requests no refetch. -/
theorem unpersist_fast_path_amended_witness :
    (Ex.sExp.thread = some ⟨"T"⟩ ∧ Ex.D1.draft = true ∧ Ex.D1.threadId = Thread.id ⟨"T"⟩ ∧
      findIndexP (fun msg => msg.id == Ex.D1.id) Ex.sExp.items = some 0 ∧
      (∀ m ∈ Ex.sExp.items, m.isHidden = false) ∧
      (Ex.sExp.items.map Message.id).Nodup) ∧
    ((onDataChanged Ex.envC ChangeType.unpersistC [Ex.D1] Ex.sExp).2.1 = 1 ∧
     (onDataChanged Ex.envC ChangeType.unpersistC [Ex.D1] Ex.sExp).2.2 = false ∧
     (onDataChanged Ex.envC ChangeType.unpersistC [Ex.D1] Ex.sExp).1.items =
        spliceOne Ex.sExp.items 0 ∧
     (∃ y, Ex.sExp.items.get? 0 = some y ∧ y.id = Ex.D1.id) ∧
     (∀ m ∈ (onDataChanged Ex.envC ChangeType.unpersistC [Ex.D1] Ex.sExp).1.items,
        m.id ≠ Ex.D1.id) ∧
     (∀ m ∈ (onDataChanged Ex.envC ChangeType.unpersistC [Ex.D1] Ex.sExp).1.items,
        m ∈ Ex.sExp.items) ∧
     (onDataChanged Ex.envC ChangeType.unpersistC [Ex.D1] Ex.sExp).1.items.length + 1 =
        Ex.sExp.items.length ∧
     (onDataChanged Ex.envC ChangeType.unpersistC [Ex.D1] Ex.sExp).1.thread =
        Ex.sExp.thread) :=
  ⟨⟨rfl, rfl, rfl, by decide, by decide, by decide⟩,
   unpersist_fast_path_amended Ex.envC Ex.sExp ⟨"T"⟩ Ex.D1 0 rfl rfl rfl
     (by decide) (by decide) (by decide)⟩

/-! Permutation lemmas for the sorts, and counting lemmas. -/

theorem insertAfterMatch_perm (d : Message) (xs : List Message) :
    (insertAfterMatch d xs).Perm (d :: xs) := by
  induction xs with
  | nil => simp [insertAfterMatch]
  | cons x rest ih =>
    rw [insertAfterMatch]
    split
    · exact List.Perm.swap d x rest
    · exact (ih.cons x).trans (List.Perm.swap d x rest)

theorem foldl_insertAfterMatch_perm :
    ∀ (ds base : List Message),
      (ds.foldl (fun acc d => insertAfterMatch d acc) base).Perm (ds ++ base) := by
  intro ds
  induction ds with
  | nil => intro base; simp
  | cons d rest ih =>
    intro base
    rw [List.foldl_cons]
    exact ((ih _).trans
      (List.Perm.append_left rest (insertAfterMatch_perm d base))).trans List.perm_middle

theorem sortItemsForDisplay_perm (l : List Message) :
    (sortItemsForDisplay l).Perm l := by
  unfold sortItemsForDisplay
  exact ((foldl_insertAfterMatch_perm _ _).trans
    (List.Perm.append_right _ (List.reverse_perm _))).trans (List.filter_append_perm _ l)

theorem countP_filter_le (p q : Message → Bool) (l : List Message) :
    (l.filter q).countP p ≤ l.countP p := by
  induction l with
  | nil => simp
  | cons a rest ih =>
    rw [List.filter_cons]
    by_cases hq : q a
    · rw [if_pos hq, List.countP_cons, List.countP_cons]
      omega
    · rw [if_neg hq, List.countP_cons]
      split <;> omega

/-- Reduction of the persist fast path when the draft is absent. -/
theorem onDataChanged_persist_absent (env : Env) (s : StoreState) (th : Thread)
    (item : Message)
    (hth : s.thread = some th) (hdr : item.draft = true)
    (htid : item.threadId = th.id)
    (hfind : findIndexP (fun msg => msg.id == item.id) s.items = none) :
    onDataChanged env ChangeType.persistC [item] s =
      (expandItemsToDefault env
        { s with items := sortItemsForDisplay ((s.items ++ [item]).filter fun m => !(m.isHidden)) },
       1, false) := by
  simp only [onDataChanged, hth, hfind]
  simp [htid, hdr]

/-- Reduction of `_onDataChanged` for a single draft persist when the draft is
already present: no fast path applies and the handler falls through to a full
`_fetchFromCache` cycle, leaving the state untouched. -/
theorem onDataChanged_persist_present (env : Env) (s : StoreState) (th : Thread)
    (item : Message) (idx : Nat)
    (hth : s.thread = some th) (hdr : item.draft = true)
    (htid : item.threadId = th.id)
    (hfind : findIndexP (fun msg => msg.id == item.id) s.items = some idx) :
    onDataChanged env ChangeType.persistC [item] s = (s, 0, true) := by
  simp only [onDataChanged, hth, hfind]
  simp [htid, hdr]

/-- For a single-draft persist on the focused thread, the handler either
leaves the list untouched (fast path not taken) or produces a list holding
the persisted id at most once. -/
theorem persist_apply_cases (env : Env) (th : Thread) (item : Message)
    (hdr : item.draft = true) (htid : item.threadId = th.id) (s : StoreState)
    (hth : s.thread = some th) :
    ((onDataChanged env ChangeType.persistC [item] s).1.thread = s.thread) ∧
    ((onDataChanged env ChangeType.persistC [item] s).1.items = s.items ∨
      ((onDataChanged env ChangeType.persistC [item] s).1.items.countP
          fun m => m.id == item.id) ≤ 1) := by
  cases hfind : findIndexP (fun msg => msg.id == item.id) s.items with
  | some idx =>
    rw [onDataChanged_persist_present env s th item idx hth hdr htid hfind]
    exact ⟨rfl, Or.inl rfl⟩
  | none =>
    rw [onDataChanged_persist_absent env s th item hth hdr htid hfind]
    refine ⟨rfl, Or.inr ?_⟩
    have h0 : s.items.countP (fun m => m.id == item.id) = 0 :=
      List.countP_eq_zero.mpr (by
        intro a ha
        simp [findIndexP_none _ s.items hfind a ha])
    have hexp : (expandItemsToDefault env
        { s with items := sortItemsForDisplay ((s.items ++ [item]).filter fun m => !(m.isHidden)) },
          1, false).1.items =
        sortItemsForDisplay ((s.items ++ [item]).filter fun m => !(m.isHidden)) := rfl
    rw [hexp]
    calc (sortItemsForDisplay ((s.items ++ [item]).filter fun m => !(m.isHidden))).countP
          (fun m => m.id == item.id)
        = ((s.items ++ [item]).filter fun m => !(m.isHidden)).countP
            (fun m => m.id == item.id) :=
          (sortItemsForDisplay_perm _).countP_eq _
      _ ≤ (s.items ++ [item]).countP (fun m => m.id == item.id) := countP_filter_le _ _ _
      _ ≤ 1 := by
          rw [List.countP_append, h0]
          simp [List.countP_cons]

/-- C8: applying the same single-draft persist notification twice leaves the
list without a duplicate — the persisted id occurs at most once afterwards
(the second application finds the id present and falls back to a refetch
request instead of appending again). -/
theorem persist_twice_no_duplicate (env : Env) (th : Thread) (item : Message)
    (s : StoreState)
    (hth : s.thread = some th) (hdr : item.draft = true)
    (htid : item.threadId = th.id)
    (hcount : (s.items.countP fun m => m.id == item.id) ≤ 1) :
    (((onDataChanged env ChangeType.persistC [item]
        (onDataChanged env ChangeType.persistC [item] s).1).1).items.countP
      fun m => m.id == item.id) ≤ 1 := by
  obtain ⟨ht1, hc1⟩ := persist_apply_cases env th item hdr htid s hth
  obtain ⟨ht2, hc2⟩ :=
    persist_apply_cases env th item hdr htid
      (onDataChanged env ChangeType.persistC [item] s).1 (ht1.trans hth)
  rcases hc2 with h2 | h2
  · rw [h2]
    rcases hc1 with h1 | h1
    · rw [h1]
      exact hcount
    · exact h1
  · exact h2

/-- Witness for C8: persisting draft Dp twice over `[M1, M2]` leaves its id
occurring at most once. -/
theorem persist_twice_no_duplicate_witness :
    (Ex.sP.thread = some ⟨"T"⟩ ∧ Ex.Dp.draft = true ∧ Ex.Dp.threadId = Thread.id ⟨"T"⟩ ∧
      (Ex.sP.items.countP fun m => m.id == Ex.Dp.id) ≤ 1) ∧
    (((onDataChanged Ex.envC ChangeType.persistC [Ex.Dp]
        (onDataChanged Ex.envC ChangeType.persistC [Ex.Dp] Ex.sP).1).1).items.countP
      fun m => m.id == Ex.Dp.id) ≤ 1 :=
  ⟨⟨rfl, rfl, rfl, by decide⟩,
   persist_twice_no_duplicate Ex.envC ⟨"T"⟩ Ex.Dp Ex.sP rfl rfl rfl (by decide)⟩

/-! Helper lemmas for the body-placeholder processing of the fetch cycle. -/

theorem insertByDate_perm (m : Message) (xs : List Message) :
    (insertByDate m xs).Perm (m :: xs) := by
  induction xs with
  | nil => simp [insertByDate]
  | cons x rest ih =>
    rw [insertByDate]
    split
    · exact List.Perm.refl _
    · exact (ih.cons x).trans (List.Perm.swap m x rest)

theorem sortByDate_perm : ∀ l : List Message, (sortByDate l).Perm l := by
  intro l
  induction l with
  | nil => simp [sortByDate]
  | cons m rest ih =>
    rw [sortByDate]
    exact (insertByDate_perm m (sortByDate rest)).trans (ih.cons m)

theorem fillBody_isSome (m : Message) : ((fillBody m).body).isSome = true := by
  unfold fillBody
  by_cases hb : jsTruthy m.body
  · rw [if_pos hb]
    cases hmb : m.body with
    | none =>
      rw [hmb] at hb
      simp [jsTruthy] at hb
    | some s => simp [hmb]
  · rw [if_neg hb]
    by_cases hs : jsTruthy m.snippet <;> simp [hs]

theorem part2Step_pile (env : Env) (acc : List Message × StoreState × Nat)
    (a : List Message) : (part2Step env acc a).1 = acc.1 ++ a.map fillBody := rfl

theorem part2Step_items (env : Env) (acc : List Message × StoreState × Nat)
    (a : List Message) :
    (part2Step env acc a).2.1.items =
      sortByDate (sortItemsForDisplay
        ((acc.1 ++ a.map fillBody).filter fun m => !(m.isHidden))) := rfl

theorem part2_foldl_bodied (env : Env) :
    ∀ (results : List (List Message)) (acc : List Message × StoreState × Nat),
      (∀ m ∈ acc.1, (m.body).isSome = true) → results ≠ [] →
      ∀ m ∈ (results.foldl (part2Step env) acc).2.1.items, (m.body).isSome = true := by
  intro results
  induction results with
  | nil => intro acc _ hne; exact absurd rfl hne
  | cons a rest ih =>
    intro acc hacc _
    have hpile : ∀ m ∈ (part2Step env acc a).1, (m.body).isSome = true := by
      rw [part2Step_pile]
      intro m hm
      rcases List.mem_append.mp hm with h | h
      · exact hacc m h
      · rcases List.mem_map.mp h with ⟨y, _, rfl⟩
        exact fillBody_isSome y
    rw [List.foldl_cons]
    by_cases hrest : rest = []
    · subst hrest
      intro m hm
      simp only [List.foldl_nil] at hm
      rw [part2Step_items] at hm
      have hm1 := ((sortByDate_perm _).mem_iff).mp hm
      have hm2 := ((sortItemsForDisplay_perm _).mem_iff).mp hm1
      exact hpile m (List.mem_of_mem_filter hm2)
    · exact ih (part2Step env acc a) hpile hrest

/-- C9: a falsy body is replaced by the snippet-derived placeholder, or by
the fixed sentinel when no snippet exists; a truthy body is left alone; the
synthesized body is never null, and after a completed fetch cycle every
message of the loaded list has a non-null body. -/
theorem missing_body_placeholder :
    (∀ m : Message, jsTruthy m.body = false →
        (fillBody m).body =
          some (if jsTruthy m.snippet then "SNIPPET: " ++ m.snippet.getD ""
                else "MESSAGE TOO OLD")) ∧
    (∀ m : Message, jsTruthy m.body = true → fillBody m = m) ∧
    (∀ m : Message, ((fillBody m).body).isSome = true) ∧
    (∀ (env : Env) (results : List (List Message)) (s : StoreState),
        results ≠ [] →
        ∀ m ∈ (fetchFromCachePart2 env results s).1.items, (m.body).isSome = true) := by
  refine ⟨?_, ?_, fillBody_isSome, ?_⟩
  · intro m hb
    unfold fillBody
    rw [if_neg (by simp [hb])]
    by_cases hs : jsTruthy m.snippet <;> simp [hs]
  · intro m hb
    simp [fillBody, hb]
  · intro env results s hne m hm
    have heq : (fetchFromCachePart2 env results s).1.items =
        (results.foldl (part2Step env) ([], s, 0)).2.1.items := rfl
    rw [heq] at hm
    exact part2_foldl_bodied env results ([], s, 0) (by simp) hne m hm

/-- Witness for C9: the no-body/no-snippet message gets the sentinel, a
truthy body is kept, and a concrete one-query fetch yields only non-null
bodies. -/
theorem missing_body_placeholder_witness :
    (jsTruthy Ex.mNoBody.body = false ∧
      (fillBody Ex.mNoBody).body =
        some (if jsTruthy Ex.mNoBody.snippet then "SNIPPET: " ++ Ex.mNoBody.snippet.getD ""
              else "MESSAGE TOO OLD")) ∧
    (jsTruthy Ex.mA.body = true ∧ fillBody Ex.mA = Ex.mA) ∧
    (([[Ex.mNoBody]] : List (List Message)) ≠ [] ∧
      ∀ m ∈ (fetchFromCachePart2 Ex.envC [[Ex.mNoBody]] Ex.s0).1.items,
        (m.body).isSome = true) :=
  ⟨⟨by decide, missing_body_placeholder.1 Ex.mNoBody (by decide)⟩,
   ⟨by decide, missing_body_placeholder.2.1 Ex.mA (by decide)⟩,
   ⟨by decide, missing_body_placeholder.2.2.2 Ex.envC [[Ex.mNoBody]] Ex.s0 (by decide)⟩⟩

end MessageStore
